import Mathlib

/-!
Verification of the line-based diff engine of the code-editor repository.

The embedded code is `generateDiff` from the DiffViewer component
(src/unnamed/part_002, lines 11-56) together with the line-numbering pass
performed while rendering (lines 69-106).  `generateDiff` splits both input
strings on the newline character, special-cases an empty old document, fills
an LCS dynamic-programming table over the two line arrays and then walks the
two arrays from the front, emitting common / del / add entries; the renderer
then assigns 1-based old/new line numbers in emission order.
-/

namespace EditorDiff

/-- Tag of an emitted diff entry, mirroring the union
`'common' | 'add' | 'del'` used by `generateDiff`. -/
inductive DiffType where
  | common : DiffType
  | add : DiffType
  | del : DiffType
  deriving DecidableEq

/-- One element of the list returned by `generateDiff`:
`{ type: 'common' | 'add' | 'del', content: string }`. -/
structure DiffEntry where
  type : DiffType
  content : String
  deriving DecidableEq

/-- A rendered diff line after the numbering pass of the viewer: the tag, the
text, and the optional 1-based old/new line numbers (`null` is `none`). -/
structure DiffLine where
  kind : DiffType
  text : String
  oldLineNumber : Option Nat
  newLineNumber : Option Nat
  deriving DecidableEq

/-- Splitting a character list at every newline character, with the JavaScript
`String.prototype.split('\n')` semantics: the empty text yields one empty
field, a trailing newline yields a trailing empty field. -/
def splitCharList : List Char → List (List Char)
  | [] => [[]]
  | c :: cs =>
    if c = '\n' then [] :: splitCharList cs
    else
      match splitCharList cs with
      | [] => [[c]]
      | g :: gs => (c :: g) :: gs

/-- `oldStr.split('\n')` from `generateDiff` (lines 12-13). -/
def splitLines (s : String) : List String :=
  (splitCharList s.data).map String.mk

/-- Fuel-bounded form of the dynamic-programming recurrence of `generateDiff`
(lines 19-29): the table entry `dp[i][j]` is filled by exactly this recursion
on the suffixes `oldLines[i..]`, `newLines[j..]`, so the value of `dp[i][j]`
is `lcsLenAux` applied to those suffixes once the fuel dominates their total
length.  The fuel only forces structural recursion; every recursive call
strictly shrinks the total length of the two lists, so a fuel of
`o.length + n.length` is never exhausted. -/
def lcsLenAux : Nat → List String → List String → Nat
  | _, [], _ => 0
  | _, _ :: _, [] => 0
  | 0, _ :: _, _ :: _ => 0
  | fuel + 1, a :: as, b :: bs =>
    if a = b then lcsLenAux fuel as bs + 1
    else max (lcsLenAux fuel as (b :: bs)) (lcsLenAux fuel (a :: as) bs)

/-- Length of the longest common subsequence of two line lists, i.e. the
value `dp[i][j]` of the table of `generateDiff` at the corresponding
suffixes. -/
def lcsLen (o n : List String) : Nat :=
  lcsLenAux (o.length + n.length) o n

theorem lcsLenAux_fuel :
    ∀ f g o n, o.length + n.length ≤ f → o.length + n.length ≤ g →
      lcsLenAux f o n = lcsLenAux g o n := by
  intro f
  induction f with
  | zero =>
    intro g o n h1 _
    cases o with
    | nil => simp [lcsLenAux]
    | cons a as =>
      cases n with
      | nil => simp [lcsLenAux]
      | cons b bs => simp only [List.length_cons] at h1; omega
  | succ f ih =>
    intro g o n h1 h2
    cases o with
    | nil => simp [lcsLenAux]
    | cons a as =>
      cases n with
      | nil => simp [lcsLenAux]
      | cons b bs =>
        cases g with
        | zero => simp only [List.length_cons] at h2; omega
        | succ g' =>
          simp only [lcsLenAux]
          simp only [List.length_cons] at h1 h2
          by_cases hab : a = b
          · simp only [if_pos hab]
            rw [ih g' as bs (by omega) (by omega)]
          · simp only [if_neg hab]
            rw [ih g' as (b :: bs) (by simp only [List.length_cons]; omega)
              (by simp only [List.length_cons]; omega),
              ih g' (a :: as) bs (by simp only [List.length_cons]; omega)
              (by simp only [List.length_cons]; omega)]

@[simp] theorem lcsLen_nil_left (n : List String) : lcsLen [] n = 0 := by
  simp [lcsLen, lcsLenAux]

@[simp] theorem lcsLen_nil_right (o : List String) : lcsLen o [] = 0 := by
  cases o <;> simp [lcsLen, lcsLenAux]

theorem lcsLen_cons_cons (a b : String) (as bs : List String) :
    lcsLen (a :: as) (b :: bs) =
      if a = b then lcsLen as bs + 1
      else max (lcsLen as (b :: bs)) (lcsLen (a :: as) bs) := by
  have h0 : lcsLen (a :: as) (b :: bs) =
      lcsLenAux (as.length + bs.length + 1 + 1) (a :: as) (b :: bs) := by
    apply lcsLenAux_fuel <;> (simp only [List.length_cons]; omega)
  rw [h0]
  simp only [lcsLenAux]
  by_cases hab : a = b
  · rw [if_pos hab, if_pos hab]
    have : lcsLenAux (as.length + bs.length + 1) as bs = lcsLen as bs := by
      apply lcsLenAux_fuel <;> omega
    rw [this]
  · rw [if_neg hab, if_neg hab]
    have e1 : lcsLenAux (as.length + bs.length + 1) as (b :: bs) =
        lcsLen as (b :: bs) := by
      apply lcsLenAux_fuel <;> (simp only [List.length_cons]; omega)
    have e2 : lcsLenAux (as.length + bs.length + 1) (a :: as) bs =
        lcsLen (a :: as) bs := by
      apply lcsLenAux_fuel <;> (simp only [List.length_cons]; omega)
    rw [e1, e2]

/-- Fuel-bounded form of the emission phase of `generateDiff` (lines 31-53):
the main `while (i < m && j < n)` loop compares the current lines, consults
`dp[i+1][j] >= dp[i][j+1]` on inequality, and the two trailing loops flush the
remaining old lines as `del` and the remaining new lines as `add`.  Each loop
iteration advances `i` or `j`, so the loop runs at most `m + n` times and a
fuel of `o.length + n.length` is never exhausted. -/
def diffWalkAux : Nat → List String → List String → List DiffEntry
  | _, [], ns => ns.map fun b => ⟨.add, b⟩
  | _, a :: as, [] => (a :: as).map fun x => ⟨.del, x⟩
  | 0, _ :: _, _ :: _ => []
  | fuel + 1, a :: as, b :: bs =>
    if a = b then ⟨.common, a⟩ :: diffWalkAux fuel as bs
    else if lcsLen as (b :: bs) ≥ lcsLen (a :: as) bs then
      ⟨.del, a⟩ :: diffWalkAux fuel as (b :: bs)
    else
      ⟨.add, b⟩ :: diffWalkAux fuel (a :: as) bs

/-- The emission phase of `generateDiff` on two line lists. -/
def diffWalk (o n : List String) : List DiffEntry :=
  diffWalkAux (o.length + n.length) o n

theorem diffWalkAux_fuel :
    ∀ f g o n, o.length + n.length ≤ f → o.length + n.length ≤ g →
      diffWalkAux f o n = diffWalkAux g o n := by
  intro f
  induction f with
  | zero =>
    intro g o n h1 _
    cases o with
    | nil => simp [diffWalkAux]
    | cons a as =>
      cases n with
      | nil => simp [diffWalkAux]
      | cons b bs => simp only [List.length_cons] at h1; omega
  | succ f ih =>
    intro g o n h1 h2
    cases o with
    | nil => simp [diffWalkAux]
    | cons a as =>
      cases n with
      | nil => simp [diffWalkAux]
      | cons b bs =>
        cases g with
        | zero => simp only [List.length_cons] at h2; omega
        | succ g' =>
          simp only [diffWalkAux]
          simp only [List.length_cons] at h1 h2
          by_cases hab : a = b
          · simp only [if_pos hab]
            rw [ih g' as bs (by omega) (by omega)]
          · simp only [if_neg hab]
            by_cases hge : lcsLen as (b :: bs) ≥ lcsLen (a :: as) bs
            · simp only [if_pos hge]
              rw [ih g' as (b :: bs) (by simp only [List.length_cons]; omega)
                (by simp only [List.length_cons]; omega)]
            · simp only [if_neg hge]
              rw [ih g' (a :: as) bs (by simp only [List.length_cons]; omega)
                (by simp only [List.length_cons]; omega)]

@[simp] theorem diffWalk_nil_left (n : List String) :
    diffWalk [] n = n.map fun b => (⟨.add, b⟩ : DiffEntry) := by
  simp [diffWalk, diffWalkAux]

@[simp] theorem diffWalk_cons_nil (a : String) (as : List String) :
    diffWalk (a :: as) [] = (a :: as).map fun x => (⟨.del, x⟩ : DiffEntry) := by
  simp [diffWalk, diffWalkAux]

theorem diffWalk_cons_cons (a b : String) (as bs : List String) :
    diffWalk (a :: as) (b :: bs) =
      if a = b then ⟨.common, a⟩ :: diffWalk as bs
      else if lcsLen as (b :: bs) ≥ lcsLen (a :: as) bs then
        ⟨.del, a⟩ :: diffWalk as (b :: bs)
      else
        ⟨.add, b⟩ :: diffWalk (a :: as) bs := by
  have h0 : diffWalk (a :: as) (b :: bs) =
      diffWalkAux (as.length + bs.length + 1 + 1) (a :: as) (b :: bs) := by
    apply diffWalkAux_fuel <;> (simp only [List.length_cons]; omega)
  rw [h0]
  simp only [diffWalkAux]
  by_cases hab : a = b
  · rw [if_pos hab, if_pos hab]
    have : diffWalkAux (as.length + bs.length + 1) as bs = diffWalk as bs := by
      apply diffWalkAux_fuel <;> omega
    rw [this]
  · rw [if_neg hab, if_neg hab]
    by_cases hge : lcsLen as (b :: bs) ≥ lcsLen (a :: as) bs
    · rw [if_pos hge, if_pos hge]
      have : diffWalkAux (as.length + bs.length + 1) as (b :: bs) =
          diffWalk as (b :: bs) := by
        apply diffWalkAux_fuel <;> (simp only [List.length_cons]; omega)
      rw [this]
    · rw [if_neg hge, if_neg hge]
      have : diffWalkAux (as.length + bs.length + 1) (a :: as) bs =
          diffWalk (a :: as) bs := by
        apply diffWalkAux_fuel <;> (simp only [List.length_cons]; omega)
      rw [this]

/-- The diff engine `generateDiff` (src/unnamed/part_002, lines 11-56): split
both inputs on the newline character; when the old document splits into a
single empty line and the old string has length zero, emit one `add` entry
per new line; otherwise run the LCS walk over the two line lists. -/
def generateDiff (oldStr newStr : String) : List DiffEntry :=
  let oldLines := splitLines oldStr
  let newLines := splitLines newStr
  if oldLines.length = 1 ∧ oldLines.headD "" = "" ∧ oldStr.length = 0 then
    newLines.map fun line => ⟨.add, line⟩
  else
    diffWalk oldLines newLines

/-- The line-numbering pass of the DiffViewer component (lines 69-106): two
counters `oldLineNum` and `newLineNum`, both starting at 1; an `add` entry
reports and increments only the new counter, a `del` entry only the old
counter, a `common` entry both. -/
def annotate : List DiffEntry → Nat → Nat → List DiffLine
  | [], _, _ => []
  | e :: rest, o, n =>
    match e.type with
    | .add => ⟨.add, e.content, none, some n⟩ :: annotate rest o (n + 1)
    | .del => ⟨.del, e.content, some o, none⟩ :: annotate rest (o + 1) n
    | .common => ⟨.common, e.content, some o, some n⟩ :: annotate rest (o + 1) (n + 1)

/-- The full rendered diff: `generateDiff` followed by the numbering pass
with both counters starting at 1. -/
def diffView (oldStr newStr : String) : List DiffLine :=
  annotate (generateDiff oldStr newStr) 1 1

/-- Keeps the content of an entry that consumes an old line
(`common` or `del`). -/
def keepOld (e : DiffEntry) : Option String :=
  match e.type with
  | .add => none
  | _ => some e.content

/-- Keeps the content of an entry that consumes a new line
(`common` or `add`). -/
def keepNew (e : DiffEntry) : Option String :=
  match e.type with
  | .del => none
  | _ => some e.content

/-- Keeps the content of a `common` entry. -/
def keepCommon (e : DiffEntry) : Option String :=
  match e.type with
  | .common => some e.content
  | _ => none

/-- The old-document lines covered by a diff, in order. -/
def oldProjection (l : List DiffEntry) : List String := l.filterMap keepOld

/-- The new-document lines covered by a diff, in order. -/
def newProjection (l : List DiffEntry) : List String := l.filterMap keepNew

/-- The unchanged lines of a diff, in order. -/
def commonProjection (l : List DiffEntry) : List String := l.filterMap keepCommon

/-- Whether an entry is tagged `add`. -/
def isAdd (e : DiffEntry) : Bool :=
  match e.type with
  | .add => true
  | _ => false

/-- Whether an entry is tagged `del`. -/
def isDel (e : DiffEntry) : Bool :=
  match e.type with
  | .del => true
  | _ => false

/-- Whether an entry is tagged `common`. -/
def isCommon (e : DiffEntry) : Bool :=
  match e.type with
  | .common => true
  | _ => false

/-- Number of `add` entries in a diff. -/
def countAdd (l : List DiffEntry) : Nat := l.countP isAdd

/-- Number of `del` entries in a diff. -/
def countDel (l : List DiffEntry) : Nat := l.countP isDel

/-- Number of `common` entries in a diff. -/
def countCommon (l : List DiffEntry) : Nat := l.countP isCommon

/-- Whether a tag reports (and increments) the old line counter. -/
def consumesOld (k : DiffType) : Bool :=
  match k with
  | .add => false
  | _ => true

/-- Whether a tag reports (and increments) the new line counter. -/
def consumesNew (k : DiffType) : Bool :=
  match k with
  | .del => false
  | _ => true

@[simp] theorem oldProjection_nil : oldProjection [] = [] := rfl

@[simp] theorem newProjection_nil : newProjection [] = [] := rfl

@[simp] theorem commonProjection_nil : commonProjection [] = [] := rfl

@[simp] theorem oldProjection_cons_common (a : String) (l : List DiffEntry) :
    oldProjection (⟨.common, a⟩ :: l) = a :: oldProjection l := by
  simp [oldProjection, List.filterMap_cons, keepOld]

@[simp] theorem oldProjection_cons_del (a : String) (l : List DiffEntry) :
    oldProjection (⟨.del, a⟩ :: l) = a :: oldProjection l := by
  simp [oldProjection, List.filterMap_cons, keepOld]

@[simp] theorem oldProjection_cons_add (b : String) (l : List DiffEntry) :
    oldProjection (⟨.add, b⟩ :: l) = oldProjection l := by
  simp [oldProjection, List.filterMap_cons, keepOld]

@[simp] theorem newProjection_cons_common (a : String) (l : List DiffEntry) :
    newProjection (⟨.common, a⟩ :: l) = a :: newProjection l := by
  simp [newProjection, List.filterMap_cons, keepNew]

@[simp] theorem newProjection_cons_del (a : String) (l : List DiffEntry) :
    newProjection (⟨.del, a⟩ :: l) = newProjection l := by
  simp [newProjection, List.filterMap_cons, keepNew]

@[simp] theorem newProjection_cons_add (b : String) (l : List DiffEntry) :
    newProjection (⟨.add, b⟩ :: l) = b :: newProjection l := by
  simp [newProjection, List.filterMap_cons, keepNew]

@[simp] theorem commonProjection_cons_common (a : String) (l : List DiffEntry) :
    commonProjection (⟨.common, a⟩ :: l) = a :: commonProjection l := by
  simp [commonProjection, List.filterMap_cons, keepCommon]

@[simp] theorem commonProjection_cons_del (a : String) (l : List DiffEntry) :
    commonProjection (⟨.del, a⟩ :: l) = commonProjection l := by
  simp [commonProjection, List.filterMap_cons, keepCommon]

@[simp] theorem commonProjection_cons_add (b : String) (l : List DiffEntry) :
    commonProjection (⟨.add, b⟩ :: l) = commonProjection l := by
  simp [commonProjection, List.filterMap_cons, keepCommon]

@[simp] theorem countAdd_nil : countAdd [] = 0 := rfl

@[simp] theorem countDel_nil : countDel [] = 0 := rfl

@[simp] theorem countCommon_nil : countCommon [] = 0 := rfl

@[simp] theorem countAdd_cons_common (a : String) (l : List DiffEntry) :
    countAdd (⟨.common, a⟩ :: l) = countAdd l := by
  simp [countAdd, List.countP_cons, isAdd]

@[simp] theorem countAdd_cons_del (a : String) (l : List DiffEntry) :
    countAdd (⟨.del, a⟩ :: l) = countAdd l := by
  simp [countAdd, List.countP_cons, isAdd]

@[simp] theorem countAdd_cons_add (b : String) (l : List DiffEntry) :
    countAdd (⟨.add, b⟩ :: l) = countAdd l + 1 := by
  simp [countAdd, List.countP_cons, isAdd]

@[simp] theorem countDel_cons_common (a : String) (l : List DiffEntry) :
    countDel (⟨.common, a⟩ :: l) = countDel l := by
  simp [countDel, List.countP_cons, isDel]

@[simp] theorem countDel_cons_del (a : String) (l : List DiffEntry) :
    countDel (⟨.del, a⟩ :: l) = countDel l + 1 := by
  simp [countDel, List.countP_cons, isDel]

@[simp] theorem countDel_cons_add (b : String) (l : List DiffEntry) :
    countDel (⟨.add, b⟩ :: l) = countDel l := by
  simp [countDel, List.countP_cons, isDel]

@[simp] theorem countCommon_cons_common (a : String) (l : List DiffEntry) :
    countCommon (⟨.common, a⟩ :: l) = countCommon l + 1 := by
  simp [countCommon, List.countP_cons, isCommon]

@[simp] theorem countCommon_cons_del (a : String) (l : List DiffEntry) :
    countCommon (⟨.del, a⟩ :: l) = countCommon l := by
  simp [countCommon, List.countP_cons, isCommon]

@[simp] theorem countCommon_cons_add (b : String) (l : List DiffEntry) :
    countCommon (⟨.add, b⟩ :: l) = countCommon l := by
  simp [countCommon, List.countP_cons, isCommon]

@[simp] theorem oldProjection_map_add (ns : List String) :
    oldProjection (ns.map fun b => (⟨.add, b⟩ : DiffEntry)) = [] := by
  induction ns with
  | nil => rfl
  | cons b bs ih => simp [ih]

@[simp] theorem newProjection_map_add (ns : List String) :
    newProjection (ns.map fun b => (⟨.add, b⟩ : DiffEntry)) = ns := by
  induction ns with
  | nil => rfl
  | cons b bs ih => simp [ih]

@[simp] theorem commonProjection_map_add (ns : List String) :
    commonProjection (ns.map fun b => (⟨.add, b⟩ : DiffEntry)) = [] := by
  induction ns with
  | nil => rfl
  | cons b bs ih => simp [ih]

@[simp] theorem oldProjection_map_del (os : List String) :
    oldProjection (os.map fun x => (⟨.del, x⟩ : DiffEntry)) = os := by
  induction os with
  | nil => rfl
  | cons a as ih => simp [ih]

@[simp] theorem newProjection_map_del (os : List String) :
    newProjection (os.map fun x => (⟨.del, x⟩ : DiffEntry)) = [] := by
  induction os with
  | nil => rfl
  | cons a as ih => simp [ih]

@[simp] theorem commonProjection_map_del (os : List String) :
    commonProjection (os.map fun x => (⟨.del, x⟩ : DiffEntry)) = [] := by
  induction os with
  | nil => rfl
  | cons a as ih => simp [ih]

@[simp] theorem countAdd_map_add (ns : List String) :
    countAdd (ns.map fun b => (⟨.add, b⟩ : DiffEntry)) = ns.length := by
  induction ns with
  | nil => rfl
  | cons b bs ih => simp [ih]

@[simp] theorem countDel_map_add (ns : List String) :
    countDel (ns.map fun b => (⟨.add, b⟩ : DiffEntry)) = 0 := by
  induction ns with
  | nil => rfl
  | cons b bs ih => simp [ih]

@[simp] theorem countCommon_map_add (ns : List String) :
    countCommon (ns.map fun b => (⟨.add, b⟩ : DiffEntry)) = 0 := by
  induction ns with
  | nil => rfl
  | cons b bs ih => simp [ih]

@[simp] theorem countAdd_map_del (os : List String) :
    countAdd (os.map fun x => (⟨.del, x⟩ : DiffEntry)) = 0 := by
  induction os with
  | nil => rfl
  | cons a as ih => simp [ih]

@[simp] theorem countDel_map_del (os : List String) :
    countDel (os.map fun x => (⟨.del, x⟩ : DiffEntry)) = os.length := by
  induction os with
  | nil => rfl
  | cons a as ih => simp [ih]

@[simp] theorem countCommon_map_del (os : List String) :
    countCommon (os.map fun x => (⟨.del, x⟩ : DiffEntry)) = 0 := by
  induction os with
  | nil => rfl
  | cons a as ih => simp [ih]

/-- Core facts about the emission phase, proved together by one induction on
the fuel: the entries consuming old lines spell out exactly the old line
list, those consuming new lines spell out exactly the new line list, the
number of `common` entries is the LCS length, the `del` (resp. `add`) count
complements the LCS length to the old (resp. new) length, and the `common`
entries form a common subsequence of both line lists. -/
theorem diffWalkAux_spec :
    ∀ f o n, o.length + n.length ≤ f →
      oldProjection (diffWalkAux f o n) = o ∧
      newProjection (diffWalkAux f o n) = n ∧
      countCommon (diffWalkAux f o n) = lcsLen o n ∧
      countDel (diffWalkAux f o n) + lcsLen o n = o.length ∧
      countAdd (diffWalkAux f o n) + lcsLen o n = n.length ∧
      List.Sublist (commonProjection (diffWalkAux f o n)) o ∧
      List.Sublist (commonProjection (diffWalkAux f o n)) n := by
  intro f
  induction f with
  | zero =>
    intro o n h1
    cases o with
    | nil =>
      simp only [diffWalkAux]
      refine ⟨by simp, by simp, by simp, by simp, by simp, ?_, ?_⟩ <;>
        (simp only [commonProjection_map_add]; exact List.nil_sublist _)
    | cons a as =>
      cases n with
      | nil =>
        simp only [diffWalkAux]
        refine ⟨by simp, by simp, by simp, by simp, by simp, ?_, ?_⟩ <;>
          (simp only [commonProjection_map_del]; exact List.nil_sublist _)
      | cons b bs => simp only [List.length_cons] at h1; omega
  | succ f ih =>
    intro o n h1
    cases o with
    | nil =>
      simp only [diffWalkAux]
      refine ⟨by simp, by simp, by simp, by simp, by simp, ?_, ?_⟩ <;>
        (simp only [commonProjection_map_add]; exact List.nil_sublist _)
    | cons a as =>
      cases n with
      | nil =>
        simp only [diffWalkAux]
        refine ⟨by simp, by simp, by simp, by simp, by simp, ?_, ?_⟩ <;>
          (simp only [commonProjection_map_del]; exact List.nil_sublist _)
      | cons b bs =>
        simp only [List.length_cons] at h1
        by_cases hab : a = b
        · have hw : diffWalkAux (f + 1) (a :: as) (b :: bs) =
              ⟨.common, a⟩ :: diffWalkAux f as bs := by
            simp only [diffWalkAux, if_pos hab]
          have hl : lcsLen (a :: as) (b :: bs) = lcsLen as bs + 1 := by
            rw [lcsLen_cons_cons, if_pos hab]
          obtain ⟨ih1, ih2, ih3, ih4, ih5, ih6, ih7⟩ := ih as bs (by omega)
          rw [hw, hl]
          refine ⟨?_, ?_, ?_, ?_, ?_, ?_, ?_⟩
          · rw [oldProjection_cons_common, ih1]
          · rw [newProjection_cons_common, ih2, hab]
          · rw [countCommon_cons_common, ih3]
          · rw [countDel_cons_common, List.length_cons]; omega
          · rw [countAdd_cons_common, List.length_cons]; omega
          · rw [commonProjection_cons_common]
            exact List.Sublist.cons₂ a ih6
          · rw [commonProjection_cons_common]
            exact hab ▸ List.Sublist.cons₂ a ih7
        · have hl : lcsLen (a :: as) (b :: bs) =
              max (lcsLen as (b :: bs)) (lcsLen (a :: as) bs) := by
            rw [lcsLen_cons_cons, if_neg hab]
          by_cases hge : lcsLen as (b :: bs) ≥ lcsLen (a :: as) bs
          · have hw : diffWalkAux (f + 1) (a :: as) (b :: bs) =
                ⟨.del, a⟩ :: diffWalkAux f as (b :: bs) := by
              simp only [diffWalkAux, if_neg hab, if_pos hge]
            obtain ⟨ih1, ih2, ih3, ih4, ih5, ih6, ih7⟩ :=
              ih as (b :: bs) (by simp only [List.length_cons]; omega)
            rw [hw, hl, max_eq_left hge]
            refine ⟨?_, ?_, ?_, ?_, ?_, ?_, ?_⟩
            · rw [oldProjection_cons_del, ih1]
            · rw [newProjection_cons_del, ih2]
            · rw [countCommon_cons_del, ih3]
            · rw [countDel_cons_del, List.length_cons]; omega
            · rw [countAdd_cons_del]; exact ih5
            · rw [commonProjection_cons_del]
              exact List.Sublist.cons a ih6
            · rw [commonProjection_cons_del]
              exact ih7
          · have hw : diffWalkAux (f + 1) (a :: as) (b :: bs) =
                ⟨.add, b⟩ :: diffWalkAux f (a :: as) bs := by
              simp only [diffWalkAux, if_neg hab, if_neg hge]
            obtain ⟨ih1, ih2, ih3, ih4, ih5, ih6, ih7⟩ :=
              ih (a :: as) bs (by simp only [List.length_cons]; omega)
            rw [hw, hl, max_eq_right (Nat.le_of_not_le hge)]
            refine ⟨?_, ?_, ?_, ?_, ?_, ?_, ?_⟩
            · rw [oldProjection_cons_add, ih1]
            · rw [newProjection_cons_add, ih2]
            · rw [countCommon_cons_add, ih3]
            · rw [countDel_cons_add]; exact ih4
            · rw [countAdd_cons_add, List.length_cons]; omega
            · rw [commonProjection_cons_add]
              exact ih6
            · rw [commonProjection_cons_add]
              exact List.Sublist.cons b ih7

theorem diffWalk_spec (o n : List String) :
    oldProjection (diffWalk o n) = o ∧
    newProjection (diffWalk o n) = n ∧
    countCommon (diffWalk o n) = lcsLen o n ∧
    countDel (diffWalk o n) + lcsLen o n = o.length ∧
    countAdd (diffWalk o n) + lcsLen o n = n.length ∧
    List.Sublist (commonProjection (diffWalk o n)) o ∧
    List.Sublist (commonProjection (diffWalk o n)) n :=
  diffWalkAux_spec (o.length + n.length) o n le_rfl

@[simp] theorem annotate_nil (o n : Nat) : annotate [] o n = [] := rfl

@[simp] theorem annotate_cons_add (c : String) (rest : List DiffEntry) (o n : Nat) :
    annotate (⟨.add, c⟩ :: rest) o n =
      ⟨.add, c, none, some n⟩ :: annotate rest o (n + 1) := rfl

@[simp] theorem annotate_cons_del (c : String) (rest : List DiffEntry) (o n : Nat) :
    annotate (⟨.del, c⟩ :: rest) o n =
      ⟨.del, c, some o, none⟩ :: annotate rest (o + 1) n := rfl

@[simp] theorem annotate_cons_common (c : String) (rest : List DiffEntry) (o n : Nat) :
    annotate (⟨.common, c⟩ :: rest) o n =
      ⟨.common, c, some o, some n⟩ :: annotate rest (o + 1) (n + 1) := rfl

/-- The old line numbers reported by the numbering pass are consecutive from
the initial counter value, one for each entry that consumes an old line. -/
theorem annotate_oldNumbers :
    ∀ (es : List DiffEntry) (o n : Nat),
      (annotate es o n).filterMap (fun l => l.oldLineNumber) =
        List.range' o (es.countP fun e => consumesOld e.type) := by
  intro es
  induction es with
  | nil => simp
  | cons e rest ih =>
    intro o n
    obtain ⟨t, c⟩ := e
    cases t <;>
      simp [List.filterMap_cons, List.countP_cons, consumesOld, ih,
        List.range'_succ]

/-- The new line numbers reported by the numbering pass are consecutive from
the initial counter value, one for each entry that consumes a new line. -/
theorem annotate_newNumbers :
    ∀ (es : List DiffEntry) (o n : Nat),
      (annotate es o n).filterMap (fun l => l.newLineNumber) =
        List.range' n (es.countP fun e => consumesNew e.type) := by
  intro es
  induction es with
  | nil => simp
  | cons e rest ih =>
    intro o n
    obtain ⟨t, c⟩ := e
    cases t <;>
      simp [List.filterMap_cons, List.countP_cons, consumesNew, ih,
        List.range'_succ]

/-- Every rendered line keeps the tag and the text of the entry it was made
from, and reports exactly the line-number fields its tag consumes. -/
theorem annotate_shape :
    ∀ (es : List DiffEntry) (o n : Nat), ∀ l ∈ annotate es o n,
      (∃ e ∈ es, e.type = l.kind ∧ e.content = l.text) ∧
      (l.kind = DiffType.common →
        (∃ p, l.oldLineNumber = some p) ∧ ∃ q, l.newLineNumber = some q) ∧
      (l.kind = DiffType.add →
        l.oldLineNumber = none ∧ ∃ q, l.newLineNumber = some q) ∧
      (l.kind = DiffType.del →
        l.newLineNumber = none ∧ ∃ p, l.oldLineNumber = some p) := by
  intro es
  induction es with
  | nil => intro o n l hl; simp at hl
  | cons e rest ih =>
    intro o n l hl
    obtain ⟨t, c⟩ := e
    cases t <;> simp only [annotate_cons_add, annotate_cons_del,
      annotate_cons_common, List.mem_cons] at hl <;>
      rcases hl with rfl | hl
    · exact ⟨⟨⟨.common, c⟩, by simp⟩, fun _ => ⟨⟨o, rfl⟩, ⟨n, rfl⟩⟩,
        fun h => by simp at h, fun h => by simp at h⟩
    · obtain ⟨h1, h2⟩ := ih (o + 1) (n + 1) l hl
      exact ⟨by obtain ⟨e, he, hee⟩ := h1; exact ⟨e, by simp [he], hee⟩, h2⟩
    · exact ⟨⟨⟨.add, c⟩, by simp⟩, fun h => by simp at h,
        fun _ => ⟨rfl, ⟨n, rfl⟩⟩, fun h => by simp at h⟩
    · obtain ⟨h1, h2⟩ := ih o (n + 1) l hl
      exact ⟨by obtain ⟨e, he, hee⟩ := h1; exact ⟨e, by simp [he], hee⟩, h2⟩
    · exact ⟨⟨⟨.del, c⟩, by simp⟩, fun h => by simp at h,
        fun h => by simp at h, fun _ => ⟨rfl, ⟨o, rfl⟩⟩⟩
    · obtain ⟨h1, h2⟩ := ih (o + 1) n l hl
      exact ⟨by obtain ⟨e, he, hee⟩ := h1; exact ⟨e, by simp [he], hee⟩, h2⟩

/-- Rendering a pure-`add` diff: each line in order, old number absent, new
numbers counting up from the initial counter value. -/
theorem annotate_map_add :
    ∀ (ls : List String) (o k : Nat),
      annotate (ls.map fun s => (⟨.add, s⟩ : DiffEntry)) o k =
        List.zipWith (fun s j => (⟨.add, s, none, some j⟩ : DiffLine)) ls
          (List.range' k ls.length) := by
  intro ls
  induction ls with
  | nil => simp
  | cons s rest ih =>
    intro o k
    simp [List.range'_succ, ih]

/-- Rendering a pure-`common` diff with both counters equal: each line in
order, both numbers counting up together. -/
theorem annotate_map_common :
    ∀ (ls : List String) (k : Nat),
      annotate (ls.map fun s => (⟨.common, s⟩ : DiffEntry)) k k =
        List.zipWith (fun s j => (⟨.common, s, some j, some j⟩ : DiffLine)) ls
          (List.range' k ls.length) := by
  intro ls
  induction ls with
  | nil => simp
  | cons s rest ih =>
    intro k
    simp [List.range'_succ, ih]

/-- A string of length zero is the empty string. -/
theorem eq_empty_of_length_eq_zero {o : String} (h : o.length = 0) : o = "" := by
  cases o with
  | mk data =>
    apply String.ext
    simp only [String.length] at h
    simpa using List.length_eq_zero.mp h

@[simp] theorem splitLines_empty : splitLines "" = [""] := rfl

/-- With an empty old document the special-case branch of `generateDiff`
fires: one `add` entry per new line, the LCS machinery untouched. -/
theorem generateDiff_empty_old (t : String) :
    generateDiff "" t = (splitLines t).map fun line => ⟨.add, line⟩ := by
  rfl

/-- With a nonempty old document the special-case branch of `generateDiff`
cannot fire and the LCS walk runs. -/
theorem generateDiff_of_ne (o n : String) (h : o ≠ "") :
    generateDiff o n = diffWalk (splitLines o) (splitLines n) := by
  rw [generateDiff, if_neg]
  intro hc
  exact h (eq_empty_of_length_eq_zero hc.2.2)

/-- Diffing a line list against itself emits one `common` entry per line. -/
theorem diffWalk_self (l : List String) :
    diffWalk l l = l.map fun s => ⟨.common, s⟩ := by
  induction l with
  | nil => simp
  | cons a as ih => rw [diffWalk_cons_cons, if_pos rfl, ih]; rfl

/-- Diffing a line list with no empty line against the single empty line
produced by splitting the empty string: every old line is emitted as `del`
(the tie-break always holds since the competing table entry is zero), then
the synthetic empty new line is flushed as `add`. -/
theorem diffWalk_to_empty (l : List String) (h : "" ∉ l) :
    diffWalk l [""] =
      (l.map fun x => (⟨.del, x⟩ : DiffEntry)) ++ [⟨.add, ""⟩] := by
  induction l with
  | nil => simp
  | cons a as ih =>
    have ha : a ≠ "" := fun hc => h (hc ▸ List.mem_cons_self a as)
    rw [diffWalk_cons_cons, if_neg ha, if_pos (by simp [Nat.zero_le]),
      ih fun hc => h (List.mem_cons_of_mem a hc)]
    simp

/-- Maximality of the table values: no common subsequence of the two line
lists is longer than `lcsLen`. -/
theorem length_le_lcsLen :
    ∀ (o n c : List String), List.Sublist c o → List.Sublist c n →
      c.length ≤ lcsLen o n := by
  intro o
  induction o with
  | nil =>
    intro n c hco _
    rw [List.sublist_nil.mp hco]
    simp
  | cons a as iho =>
    intro n
    induction n with
    | nil =>
      intro c _ hcn
      rw [List.sublist_nil.mp hcn]
      simp
    | cons b bs ihn =>
      intro c hco hcn
      cases c with
      | nil => simp
      | cons x c' =>
        rw [lcsLen_cons_cons]
        by_cases hab : a = b
        · rw [if_pos hab]
          have h1 : List.Sublist c' as := by
            cases hco with
            | cons _ h => exact (List.sublist_cons_self x c').trans h
            | cons₂ _ h => exact h
          have h2 : List.Sublist c' bs := by
            cases hcn with
            | cons _ h => exact (List.sublist_cons_self x c').trans h
            | cons₂ _ h => exact h
          have h3 := iho bs c' h1 h2
          simp only [List.length_cons]
          omega
        · rw [if_neg hab]
          cases hco with
          | cons _ h =>
            exact le_trans (iho (b :: bs) (x :: c') h hcn) (le_max_left _ _)
          | cons₂ _ h =>
            cases hcn with
            | cons _ h' =>
              exact le_trans (ihn (a :: c') (List.Sublist.cons₂ a h) h')
                (le_max_right _ _)
            | cons₂ _ h' => exact absurd rfl hab

/-- Reading the dynamic-programming table at `(i, j)`, with the bounds check
made explicit: the table of `generateDiff` has `m + 1` rows and `n + 1`
columns and its fill loop (lines 21-29) computes exactly the suffix-LCS
recurrence, so an in-bounds read yields the suffix-LCS value. -/
def dpGet (old nw : List String) (i j : Nat) : Option Nat :=
  if i ≤ old.length ∧ j ≤ nw.length then
    some (lcsLen (old.drop i) (nw.drop j))
  else none

/-- Index-level form of the emission phase (lines 31-53), with every array
access checked: the current-line reads `oldLines[i]`, `newLines[j]` and the
table reads `dp[i+1][j]`, `dp[i][j+1]` each return an `Option`, and any
out-of-bounds access aborts the computation with `none`.  The fuel bounds the
number of loop iterations. -/
def walkIdxAux (old nw : List String) : Nat → Nat → Nat → Option (List DiffEntry)
  | 0, i, j => if i < old.length ∨ j < nw.length then none else some []
  | f + 1, i, j =>
    if i < old.length then
      if j < nw.length then
        old[i]?.bind fun a =>
          nw[j]?.bind fun b =>
            if a = b then
              (walkIdxAux old nw f (i + 1) (j + 1)).map fun r => ⟨.common, a⟩ :: r
            else
              (dpGet old nw (i + 1) j).bind fun x =>
                (dpGet old nw i (j + 1)).bind fun y =>
                  if x ≥ y then
                    (walkIdxAux old nw f (i + 1) j).map fun r => ⟨.del, a⟩ :: r
                  else
                    (walkIdxAux old nw f i (j + 1)).map fun r => ⟨.add, b⟩ :: r
      else
        old[i]?.bind fun a =>
          (walkIdxAux old nw f (i + 1) j).map fun r => ⟨.del, a⟩ :: r
    else
      if j < nw.length then
        nw[j]?.bind fun b =>
          (walkIdxAux old nw f i (j + 1)).map fun r => ⟨.add, b⟩ :: r
      else some []

/-- `generateDiff` with every array access checked, returning `none` if any
access is out of bounds or the loop fuel is exhausted. -/
def generateDiffChecked (oldStr newStr : String) : Option (List DiffEntry) :=
  let oldLines := splitLines oldStr
  let newLines := splitLines newStr
  if oldLines.length = 1 ∧ oldLines.headD "" = "" ∧ oldStr.length = 0 then
    some (newLines.map fun line => ⟨.add, line⟩)
  else
    walkIdxAux oldLines newLines (oldLines.length + newLines.length) 0 0

@[simp] theorem diffWalk_nil_right (os : List String) :
    diffWalk os [] = os.map fun x => (⟨.del, x⟩ : DiffEntry) := by
  cases os with
  | nil => simp
  | cons a as => simp [diffWalk_cons_nil]

/-- The checked walk never fails and agrees with the list-level walk on the
corresponding suffixes. -/
theorem walkIdxAux_eq :
    ∀ (old nw : List String) (f i j : Nat),
      old.length - i + (nw.length - j) ≤ f →
      walkIdxAux old nw f i j =
        some (diffWalk (old.drop i) (nw.drop j)) := by
  intro old nw f
  induction f with
  | zero =>
    intro i j h1
    have hi : old.length ≤ i := by omega
    have hj : nw.length ≤ j := by omega
    rw [walkIdxAux, if_neg (by omega), List.drop_eq_nil_iff.mpr hi,
      List.drop_eq_nil_iff.mpr hj]
    simp
  | succ f ih =>
    intro i j h1
    by_cases hi : i < old.length
    · by_cases hj : j < nw.length
      · rw [walkIdxAux, if_pos hi, if_pos hj,
          List.getElem?_eq_getElem hi, List.getElem?_eq_getElem hj]
        simp only [Option.some_bind]
        have hod : old.drop i = old[i] :: old.drop (i + 1) :=
          List.drop_eq_getElem_cons hi
        have hnd : nw.drop j = nw[j] :: nw.drop (j + 1) :=
          List.drop_eq_getElem_cons hj
        rw [hod, hnd, diffWalk_cons_cons]
        by_cases hab : old[i] = nw[j]
        · rw [if_pos hab, if_pos hab, ih (i + 1) (j + 1) (by omega)]
          rfl
        · rw [if_neg hab, if_neg hab]
          rw [dpGet, if_pos (by constructor <;> omega),
            dpGet, if_pos (by constructor <;> omega)]
          simp only [Option.some_bind]
          rw [← hod, ← hnd]
          by_cases hge : lcsLen (old.drop (i + 1)) (nw.drop j) ≥
              lcsLen (old.drop i) (nw.drop (j + 1))
          · rw [if_pos hge, if_pos hge, ih (i + 1) j (by omega)]
            rfl
          · rw [if_neg hge, if_neg hge, ih i (j + 1) (by omega)]
            rfl
      · rw [walkIdxAux, if_pos hi, if_neg hj,
          List.getElem?_eq_getElem hi]
        simp only [Option.some_bind]
        have hod : old.drop i = old[i] :: old.drop (i + 1) :=
          List.drop_eq_getElem_cons hi
        have hnd : nw.drop j = [] := List.drop_eq_nil_iff.mpr (by omega)
        rw [ih (i + 1) j (by omega), hnd, diffWalk_nil_right,
          diffWalk_nil_right, hod]
        rfl
    · by_cases hj : j < nw.length
      · rw [walkIdxAux, if_neg hi, if_pos hj,
          List.getElem?_eq_getElem hj]
        simp only [Option.some_bind]
        have hod : old.drop i = [] := List.drop_eq_nil_iff.mpr (by omega)
        have hnd : nw.drop j = nw[j] :: nw.drop (j + 1) :=
          List.drop_eq_getElem_cons hj
        rw [ih i (j + 1) (by omega), hod, diffWalk_nil_left,
          diffWalk_nil_left, hnd]
        rfl
      · rw [walkIdxAux, if_neg hi, if_neg hj,
          List.drop_eq_nil_iff.mpr (by omega : old.length ≤ i),
          List.drop_eq_nil_iff.mpr (by omega : nw.length ≤ j)]
        simp

/-- A `common` entry of any diff result carries a text that is a line of both
documents. -/
theorem mem_common_text (o n : String) (e : DiffEntry)
    (he : e ∈ generateDiff o n) (ht : e.type = DiffType.common) :
    e.content ∈ splitLines o ∧ e.content ∈ splitLines n := by
  by_cases h : o = ""
  · subst h
    rw [generateDiff_empty_old] at he
    obtain ⟨x, -, rfl⟩ := List.mem_map.mp he
    simp at ht
  · rw [generateDiff_of_ne o n h] at he
    obtain ⟨-, -, -, -, -, h6, h7⟩ := diffWalk_spec (splitLines o) (splitLines n)
    have hm : e.content ∈
        commonProjection (diffWalk (splitLines o) (splitLines n)) :=
      List.mem_filterMap.mpr ⟨e, he, by simp [keepCommon, ht]⟩
    exact ⟨h6.subset hm, h7.subset hm⟩

/-- Claim C1 counterexample: at `oldText = ""`, `newText = ""` the single
line produced by splitting the old document appears zero times in the result
as Common or Deleted, so coverage as universally stated fails. -/
theorem C1_counterexample :
    oldProjection (generateDiff "" "") ≠ splitLines "" := by decide

/-- Claim C1 (amended): every line of `newText` appears in the result exactly
once, in order, tagged Common or Added, for all inputs; and every line of
`oldText` appears exactly once, in order, tagged Common or Deleted, whenever
`oldText` is nonempty (the empty-old special-case branch intentionally drops
the synthetic empty old line). -/
theorem C1_coverage (o n : String) :
    newProjection (generateDiff o n) = splitLines n ∧
    (o ≠ "" → oldProjection (generateDiff o n) = splitLines o) := by
  by_cases h : o = ""
  · subst h
    rw [generateDiff_empty_old]
    exact ⟨newProjection_map_add _, fun hc => absurd rfl hc⟩
  · rw [generateDiff_of_ne o n h]
    obtain ⟨h1, h2, -, -, -, -, -⟩ := diffWalk_spec (splitLines o) (splitLines n)
    exact ⟨h2, fun _ => h1⟩

/-- Claim C1 witness. -/
theorem C1_witness :
    ("one" : String) ≠ "" ∧
    newProjection (generateDiff "one" "one") = splitLines "one" ∧
    oldProjection (generateDiff "one" "one") = splitLines "one" :=
  ⟨by decide, (C1_coverage "one" "one").1,
    (C1_coverage "one" "one").2 (by decide)⟩

/-- Claim C2 counterexample: `diff("", "")` renders as a single Added line,
not as the all-Common identity result the claim demands for every `x`. -/
theorem C2_counterexample :
    diffView "" "" ≠
      List.zipWith (fun s j => (⟨.common, s, some j, some j⟩ : DiffLine))
        (splitLines "") (List.range' 1 (splitLines "").length) := by decide

/-- Claim C2 (amended): for every nonempty string `x`, `diff(x, x)` yields
only Common lines, one per line of `x` in order, with both line numbers equal
to the 1-based position of the line. -/
theorem C2_identity (x : String) (h : x ≠ "") :
    diffView x x =
      List.zipWith (fun s j => (⟨.common, s, some j, some j⟩ : DiffLine))
        (splitLines x) (List.range' 1 (splitLines x).length) := by
  rw [diffView, generateDiff_of_ne x x h, diffWalk_self, annotate_map_common]

/-- Claim C2 witness. -/
theorem C2_witness :
    ("a\nb" : String) ≠ "" ∧
    diffView "a\nb" "a\nb" =
      List.zipWith (fun s j => (⟨.common, s, some j, some j⟩ : DiffLine))
        (splitLines "a\nb") (List.range' 1 (splitLines "a\nb").length) :=
  ⟨by decide, C2_identity "a\nb" (by decide)⟩

/-- Claim C3: `diff("", anyText)` takes the up-front empty-baseline branch,
yielding one Added entry per line of `anyText` in order, rendered with
`newLineNumber` 1, 2, 3, … and `oldLineNumber` absent throughout; the branch
result can differ from what the generic LCS walk would produce. -/
theorem C3_emptyBaseline (t : String) :
    generateDiff "" t = (splitLines t).map (fun line => ⟨.add, line⟩) ∧
    diffView "" t =
      List.zipWith (fun s j => (⟨.add, s, none, some j⟩ : DiffLine))
        (splitLines t) (List.range' 1 (splitLines t).length) ∧
    generateDiff "" "" ≠ diffWalk (splitLines "") (splitLines "") := by
  refine ⟨generateDiff_empty_old t, ?_, by decide⟩
  rw [diffView, generateDiff_empty_old, annotate_map_add]

/-- Claim C4 counterexample: `diff("a", "")` is not all-Deleted — splitting
the empty new document yields one empty line, which is flushed as a trailing
Added entry. -/
theorem C4_counterexample :
    generateDiff "a" "" = [⟨.del, "a"⟩, ⟨.add, ""⟩] ∧
    ¬ ∀ e ∈ generateDiff "a" "", e.type = DiffType.del := by decide

/-- Claim C4 (amended): for any `anyText` none of whose lines is empty,
`diff(anyText, "")` yields the lines of `anyText` as Deleted, in order,
followed by exactly one Added empty line for the synthetic empty line that
the empty new document splits into. -/
theorem C4_emptyTarget (t : String) (h : "" ∉ splitLines t) :
    generateDiff t "" =
      ((splitLines t).map fun x => (⟨.del, x⟩ : DiffEntry)) ++
        [⟨.add, ""⟩] := by
  have ht : t ≠ "" := by
    intro hc
    subst hc
    exact h (by simp)
  rw [generateDiff_of_ne t "" ht, splitLines_empty]
  exact diffWalk_to_empty _ h

/-- Claim C4 witness. -/
theorem C4_witness :
    ("" : String) ∉ splitLines "a\nb" ∧
    generateDiff "a\nb" "" = [⟨.del, "a"⟩, ⟨.del, "b"⟩, ⟨.add, ""⟩] :=
  ⟨by decide, (C4_emptyTarget "a\nb" (by decide)).trans (by decide)⟩

/-- Claim C5 counterexample: at `("", "")` the result has one Added plus zero
Deleted entries, but `m + n - 2·LCS = 1 + 1 - 2 = 0`, so the minimality
equation fails as universally stated (the special-case branch ignores the
common empty line). -/
theorem C5_counterexample :
    countAdd (generateDiff "" "") + countDel (generateDiff "" "") ≠
      (splitLines "").length + (splitLines "").length -
        2 * lcsLen (splitLines "") (splitLines "") := by decide

/-- Claim C5 (amended): for every nonempty `oldText`, the number of Added
plus Deleted entries equals `m + n - 2·LCS(old lines, new lines)`, and is
minimal among all valid line alignments: any common subsequence `c` of the
two line lists gives an alignment with `(m - |c|) + (n - |c|)` edits, and the
result never exceeds that. -/
theorem C5_minimality (o n : String) (h : o ≠ "") :
    countAdd (generateDiff o n) + countDel (generateDiff o n) =
      (splitLines o).length + (splitLines n).length -
        2 * lcsLen (splitLines o) (splitLines n) ∧
    ∀ c, List.Sublist c (splitLines o) → List.Sublist c (splitLines n) →
      countAdd (generateDiff o n) + countDel (generateDiff o n) ≤
        ((splitLines o).length - c.length) +
          ((splitLines n).length - c.length) := by
  rw [generateDiff_of_ne o n h]
  obtain ⟨-, -, -, h4, h5, -, -⟩ := diffWalk_spec (splitLines o) (splitLines n)
  constructor
  · omega
  · intro c hc1 hc2
    have hb := length_le_lcsLen (splitLines o) (splitLines n) c hc1 hc2
    omega

/-- Claim C5 witness. -/
theorem C5_witness :
    ("a\nb" : String) ≠ "" ∧
    countAdd (generateDiff "a\nb" "b\na") +
        countDel (generateDiff "a\nb" "b\na") =
      (splitLines "a\nb").length + (splitLines "b\na").length -
        2 * lcsLen (splitLines "a\nb") (splitLines "b\na") :=
  ⟨by decide, (C5_minimality "a\nb" "b\na" (by decide)).1⟩

/-- Claim C6: whenever the current old and new lines differ and the two
continuation table values are equal, the walk emits the Deleted entry for the
old line (the `>=` comparison prefers deletion); in particular
`diff("a\nb", "b\na")` is the fixed sequence
Deleted "a", Common "b", Added "a". -/
theorem C6_tieBreak (a b : String) (as bs : List String) (hne : a ≠ b)
    (heq : lcsLen as (b :: bs) = lcsLen (a :: as) bs) :
    diffWalk (a :: as) (b :: bs) = ⟨.del, a⟩ :: diffWalk as (b :: bs) ∧
    generateDiff "a\nb" "b\na" =
      [⟨.del, "a"⟩, ⟨.common, "b"⟩, ⟨.add, "a"⟩] := by
  refine ⟨?_, by decide⟩
  rw [diffWalk_cons_cons, if_neg hne, if_pos (le_of_eq heq.symm)]

/-- Claim C6 witness. -/
theorem C6_witness :
    ("a" : String) ≠ "b" ∧
    lcsLen ["b"] ["b", "a"] = lcsLen ["a", "b"] ["a"] ∧
    diffWalk ["a", "b"] ["b", "a"] =
      ⟨.del, "a"⟩ :: diffWalk ["b"] ["b", "a"] ∧
    generateDiff "a\nb" "b\na" =
      [⟨.del, "a"⟩, ⟨.common, "b"⟩, ⟨.add, "a"⟩] :=
  ⟨by decide, by decide,
    (C6_tieBreak "a" "b" ["b"] ["a"] (by decide) (by decide)).1,
    (C6_tieBreak "a" "b" ["b"] ["a"] (by decide) (by decide)).2⟩

/-- Claim C7: the end-to-end scenario
`diff("one\ntwo\nthree", "one\ntwo\nTHREE\nfour")` renders exactly as
Common("one",1,1), Common("two",2,2), Deleted("three",3,null),
Added("THREE",null,3), Added("four",null,4), in that order. -/
theorem C7_endToEnd :
    diffView "one\ntwo\nthree" "one\ntwo\nTHREE\nfour" =
      [⟨.common, "one", some 1, some 1⟩, ⟨.common, "two", some 2, some 2⟩,
       ⟨.del, "three", some 3, none⟩, ⟨.add, "THREE", none, some 3⟩,
       ⟨.add, "four", none, some 4⟩] := by decide

/-- Claim C8: the diff is a total function over strings — the checked
variant, in which every array read (current lines and table entries) returns
an `Option` and any out-of-bounds access or fuel exhaustion aborts with
`none`, succeeds on every input and returns exactly the unchecked result. -/
theorem C8_total (o n : String) :
    generateDiffChecked o n = some (generateDiff o n) := by
  simp only [generateDiffChecked, generateDiff]
  by_cases hc : (splitLines o).length = 1 ∧
      (splitLines o).headD "" = "" ∧ o.length = 0
  · rw [if_pos hc, if_pos hc]
  · rw [if_neg hc, if_neg hc,
      walkIdxAux_eq (splitLines o) (splitLines n) _ 0 0 (by omega)]
    simp

/-- Claim C9: every rendered line satisfies the kind invariants (Common has
both numbers and a text occurring in both documents, Added has no old number
and a new number, Deleted has no new number and an old number), and the two
1-based counters start at 1 and are assigned consecutively, in emission
order, to exactly the entries whose kind consumes them. -/
theorem C9_invariants (o n : String) :
    (∀ l ∈ diffView o n,
      (l.kind = DiffType.common →
        (∃ p, l.oldLineNumber = some p) ∧ (∃ q, l.newLineNumber = some q) ∧
        l.text ∈ splitLines o ∧ l.text ∈ splitLines n) ∧
      (l.kind = DiffType.add →
        l.oldLineNumber = none ∧ ∃ q, l.newLineNumber = some q) ∧
      (l.kind = DiffType.del →
        l.newLineNumber = none ∧ ∃ p, l.oldLineNumber = some p)) ∧
    (diffView o n).filterMap (fun l => l.oldLineNumber) =
      List.range' 1 ((generateDiff o n).countP fun e => consumesOld e.type) ∧
    (diffView o n).filterMap (fun l => l.newLineNumber) =
      List.range' 1 ((generateDiff o n).countP fun e => consumesNew e.type) := by
  refine ⟨?_, annotate_oldNumbers _ 1 1, annotate_newNumbers _ 1 1⟩
  intro l hl
  obtain ⟨⟨e, he, het, hec⟩, hcom, hadd, hdel⟩ :=
    annotate_shape (generateDiff o n) 1 1 l hl
  refine ⟨?_, hadd, hdel⟩
  intro hk
  obtain ⟨h1, h2⟩ := hcom hk
  have hm := mem_common_text o n e he (het.trans hk)
  exact ⟨h1, h2, hec ▸ hm.1, hec ▸ hm.2⟩

/-- Claim C9 witness. -/
theorem C9_witness :
    (⟨.del, "a", some 1, none⟩ : DiffLine).newLineNumber = none ∧
    ∃ p, (⟨.del, "a", some 1, none⟩ : DiffLine).oldLineNumber = some p :=
  ((C9_invariants "a" "b").1 ⟨.del, "a", some 1, none⟩ (by decide)).2.2 rfl

/-- Claim C10: `diff("", "")` returns exactly one Added entry whose text is
the empty string — the empty-baseline branch maps over the single empty line
that splitting the empty string produces. -/
theorem C10_bothEmpty : generateDiff "" "" = [⟨.add, ""⟩] := by decide

end EditorDiff
